/-
Verification of the molecular surface field generator
(examples/molecules/main.cpp of the meshutils repository).
The C++ code is shallowly embedded: float arithmetic is idealised as exact
rational (ℚ) arithmetic except for the colour compositor, whose `normalize`
step needs square roots and is embedded over ℝ.  Each embedded definition
mirrors one piece of the source; theorems relate them to the specification's
claims.
-/
import Mathlib

/-- Three-component vector, embedding `glm::vec3` with exact coordinates. -/
structure Vec3 where
  x : ℚ
  y : ℚ
  z : ℚ
deriving DecidableEq, Repr, Inhabited

/-- Componentwise difference, embedding `glm::vec3` subtraction. -/
def vsub (a b : Vec3) : Vec3 := ⟨a.x - b.x, a.y - b.y, a.z - b.z⟩

/-- Dot product, embedding `glm::dot`. -/
def dot (a b : Vec3) : ℚ := a.x * b.x + a.y * b.y + a.z * b.z

/-- Squared distance `glm::dot(a - b, a - b)` as used throughout the source. -/
def sqdist (a b : Vec3) : ℚ := dot (vsub a b) (vsub a b)

/-- The large float sentinel `1e37f` used to initialise running minima. -/
def bigSentinel : ℚ := 10 ^ 37

/-- World position of grid vertex (x,y,z): `x * grid_spacing + min.x` etc. -/
def worldPos (mn : Vec3) (gs : ℚ) (x y z : ℕ) : Vec3 :=
  ⟨(x : ℚ) * gs + mn.x, (y : ℚ) * gs + mn.y, (z : ℚ) * gs + mn.z⟩

/-- Per-atom contribution `d2 - r2` with `r2 = (r + water_radius)^2`
(main.cpp lines 207-211); an atom is a (position, radius) pair. -/
def atomValue (xyz : Vec3) (wr : ℚ) (a : Vec3 × ℚ) : ℚ :=
  sqdist xyz a.1 - (a.2 + wr) * (a.2 + wr)

/-- Accessible-field value at one grid vertex (main.cpp lines 205-213):
running minimum over all atoms, initialised to the `1e37f` sentinel. -/
def accessibleValue (xyz : Vec3) (atoms : List (Vec3 × ℚ)) (wr : ℚ) : ℚ :=
  atoms.foldl (fun value a => min value (atomValue xyz wr a)) bigSentinel

/-- Accessible field addressed by integer grid coordinates
(main.cpp lines 199-216). -/
def accessibleAt (atoms : List (Vec3 × ℚ)) (wr : ℚ) (mn : Vec3) (gs : ℚ)
    (x y z : ℕ) : ℚ :=
  accessibleValue (worldPos mn gs x y z) atoms wr

/-- Outside sentinel `-(water_radius * water_radius)` (main.cpp line 242). -/
def outsideValue (wr : ℚ) : ℚ := -(wr * wr)

/-- Origin vector, also used as the default for out-of-range reads. -/
def v0 : Vec3 := ⟨0, 0, 0⟩

/-- Inner loop of `std::lower_bound` over the z-sorted vertex list with
comparator `a.z < b.z` (main.cpp line 248): binary search for the first
position whose z is not below `zval`, over the window starting at `first`
of length `count`.  The extra `fuel` argument only makes the halving loop
structurally recursive; it is initialised to the window length and, since
each halving step shrinks the window, it is never exhausted. -/
def lbAux (l : List Vec3) (zval : ℚ) : ℕ → ℕ → ℕ → ℕ
  | 0, first, _ => first
  | _ + 1, first, 0 => first
  | fuel + 1, first, n + 1 =>
    let step := (n + 1) / 2
    if (l.getD (first + step) v0).z < zval then
      lbAux l zval fuel (first + step + 1) (n - step)
    else
      lbAux l zval fuel first step

/-- Inner loop of `std::upper_bound` (main.cpp line 249): binary search for
the first position whose z is strictly above `zval`; fuel as in `lbAux`. -/
def ubAux (l : List Vec3) (zval : ℚ) : ℕ → ℕ → ℕ → ℕ
  | 0, first, _ => first
  | _ + 1, first, 0 => first
  | fuel + 1, first, n + 1 =>
    let step := (n + 1) / 2
    if zval < (l.getD (first + step) v0).z then
      ubAux l zval fuel first step
    else
      ubAux l zval fuel (first + step + 1) (n - step)

/-- Position returned by `std::lower_bound(zsorter.begin(), zsorter.end(), v, cmpz)`. -/
def lowerBoundZ (l : List Vec3) (zval : ℚ) : ℕ := lbAux l zval l.length 0 l.length

/-- Position returned by `std::upper_bound(zsorter.begin(), zsorter.end(), v, cmpz)`. -/
def upperBoundZ (l : List Vec3) (zval : ℚ) : ℕ := ubAux l zval l.length 0 l.length

/-- Iterator sub-range `[p, q)` cut out of the z-sorted list by the two
binary searches (main.cpp lines 248-249). -/
def zSub (l : List Vec3) (zlo zhi : ℚ) : List Vec3 :=
  (l.drop (lowerBoundZ l zlo)).take (upperBoundZ l zhi - lowerBoundZ l zlo)

/-- The `ysorter` linear filter (main.cpp lines 255-260):
keep entries whose y is within `m` of `ypos`. -/
def yFilter (l : List Vec3) (ypos m : ℚ) : List Vec3 :=
  l.filter (fun r => decide (|r.y - ypos| ≤ m))

/-- Two-stage band query: binary-searched z sub-range, then linear y filter,
with margin `water_radius + grid_spacing` on both axes. -/
def bandQuery (zsorter : List Vec3) (wr gs zpos ypos : ℚ) : List Vec3 :=
  yFilter (zSub zsorter (zpos - (wr + gs)) (zpos + (wr + gs))) ypos (wr + gs)

/-- Brute-force linear scan of the full indexed set with the same z and y
bounds; this is the specification-side counterpart of `bandQuery`. -/
def bruteScan (zsorter : List Vec3) (wr gs zpos ypos : ℚ) : List Vec3 :=
  zsorter.filter (fun r =>
    decide (zpos - (wr + gs) ≤ r.z) && decide (r.z ≤ zpos + (wr + gs)) &&
      decide (|r.y - ypos| ≤ wr + gs))

/-- Excluded-field value at one grid vertex (main.cpp lines 262-281):
outside sentinel when the accessible field is non-negative, otherwise the
minimum squared distance to the banded surface points minus
`water_radius^2`, with the sentinel as fallback when the running minimum
never left `1e37`. -/
def excludedValue (accVal : ℚ) (band : List Vec3) (xyz : Vec3) (wr : ℚ) : ℚ :=
  if accVal < 0 then
    let value := band.foldl (fun v r => min v (sqdist xyz r)) bigSentinel
    if value = bigSentinel then outsideValue wr else value - wr * wr
  else outsideValue wr

/-- Excluded field addressed by integer grid coordinates (main.cpp lines
243-283), with the band recomputed from the z-sorted surface points for the
vertex's z slab and y row exactly as the source does. -/
def excludedAt (atoms : List (Vec3 × ℚ)) (zsorter : List Vec3) (wr : ℚ)
    (mn : Vec3) (gs : ℚ) (x y z : ℕ) : ℚ :=
  excludedValue (accessibleAt atoms wr mn gs x y z)
    (bandQuery zsorter wr gs ((z : ℚ) * gs + mn.z) ((y : ℚ) * gs + mn.y))
    (worldPos mn gs x y z) wr

/-- Inclusive character run produced by `for (char i = lo; i <= hi; ++i)`;
empty when `hi < lo`. -/
def charRange (lo hi : Char) : List Char :=
  (List.range' lo.toNat (hi.toNat + 1 - lo.toNat)).map Char.ofNat

/-- Chain-selector expansion loop (main.cpp lines 143-152), verbatim: the
range branch fires when `p[1] == '-' && p[2] && p[2] >= p[1]` and then runs
`for (char i = p[1]; i <= p[2]; ++i)` — both comparisons use `p[1]` (the
dash itself), not `p[0]`. -/
def expandChains : List Char → List Char
  | [] => []
  | c0 :: c1 :: c2 :: rest =>
    if c1 = '-' ∧ c1 ≤ c2 then charRange c1 c2 ++ expandChains rest
    else c0 :: expandChains (c1 :: c2 :: rest)
  | c0 :: rest => c0 :: expandChains rest

/-- Componentwise minimum, embedding `glm::min` on vec3. -/
def vmin (a b : Vec3) : Vec3 := ⟨min a.x b.x, min a.y b.y, min a.z b.z⟩

/-- Componentwise maximum, embedding `glm::max` on vec3. -/
def vmax (a b : Vec3) : Vec3 := ⟨max a.x b.x, max a.y b.y, max a.z b.z⟩

/-- Subtract a scalar from every component: `p - glm::vec3(s)`. -/
def vsubS (v : Vec3) (s : ℚ) : Vec3 := ⟨v.x - s, v.y - s, v.z - s⟩

/-- Add a scalar to every component: `p + glm::vec3(s)`. -/
def vaddS (v : Vec3) (s : ℚ) : Vec3 := ⟨v.x + s, v.y + s, v.z + s⟩

/-- Aggregated atom positions: `addChain` appends each selected chain's
positions in expansion order (main.cpp lines 134-152). -/
def aggregatePos (chains : List Char) (pdbPos : Char → List Vec3) : List Vec3 :=
  (expandChains chains).foldl (fun acc c => acc ++ pdbPos c) []

/-- Bounding-box fold (main.cpp lines 169-175).  The C++ code initialises
both accumulators with `pos[0]`, an out-of-bounds read when the selection is
empty; the embedding returns `none` in that case, recording that the fold
has no defined value there. -/
def boundingBox (pos : List Vec3) (radii : List ℚ) : Option (Vec3 × Vec3) :=
  match pos with
  | [] => none
  | p0 :: _ =>
    some ((pos.zip radii).foldl (fun m a => vmin m (vsubS a.1 a.2)) p0,
          (pos.zip radii).foldl (fun m a => vmax m (vaddS a.1 a.2)) p0)

/-- Maximum atom radius, folded from 0 (main.cpp lines 177-180). -/
def maxRadius (radii : List ℚ) : ℚ := radii.foldl (fun m r => max m r) 0

/-- C-style `int(...)` cast of a float: truncation toward zero. -/
def cppTrunc (q : ℚ) : ℤ := if 0 ≤ q then ⌊q⌋ else -⌊-q⌋

/-- Grid extents produced by main.cpp lines 169-191: padded corners and the
three integer dimensions `int((max - min) * recip_gs + 1)`. -/
structure GridExtents where
  mn : Vec3
  mx : Vec3
  xdim : ℤ
  ydim : ℤ
  zdim : ℤ
deriving DecidableEq, Repr

/-- Grid extent calculation (main.cpp lines 169-191): bounding box of the
inflated atoms, padded by `water_radius + max_radius`, then integer
dimensions from the reciprocal grid spacing. -/
def gridExtents (pos : List Vec3) (radii : List ℚ) (wr gs : ℚ) :
    Option GridExtents :=
  match boundingBox pos radii with
  | none => none
  | some (mn0, mx0) =>
    let mr := maxRadius radii
    let mn := vsubS mn0 (wr + mr)
    let mx := vaddS mx0 (wr + mr)
    let recip := 1 / gs
    some ⟨mn, mx,
      cppTrunc ((mx.x - mn.x) * recip + 1),
      cppTrunc ((mx.y - mn.y) * recip + 1),
      cppTrunc ((mx.z - mn.z) * recip + 1)⟩

/-- State of one `par_for` pass (main.cpp lines 38-59): the shared atomic
claim counter, the workers still running, and the indices on which `fn` has
been invoked, in claim order. -/
structure PFState where
  counter : ℤ
  active : Finset ℕ
  invoked : List ℤ

/-- One atomic claim `int i = idx++` by worker `w` (main.cpp lines 46-52): a
worker that claims a value at or beyond `end` breaks out of its loop without
invoking; otherwise it invokes `fn` on the claimed index.  A worker that has
already stopped performs no further claims. -/
def pfStep (e : ℤ) (s : PFState) (w : ℕ) : PFState :=
  if w ∈ s.active then
    if e ≤ s.counter then
      { counter := s.counter + 1, active := s.active.erase w,
        invoked := s.invoked }
    else
      { counter := s.counter + 1, active := s.active,
        invoked := s.invoked ++ [s.counter] }
  else s

/-- Interleaved execution of a pass: the schedule lists the workers in the
order in which they reach the atomic increment. -/
def pfRun (e : ℤ) (s : PFState) (sched : List ℕ) : PFState :=
  sched.foldl (pfStep e) s

/-- Initial state of `par_for(begin, end, fn)`: counter at `begin`,
`num_cpus` workers launched and nothing invoked.  `num_cpus` is
`std::thread::hardware_concurrency()` verbatim — the source applies no
minimum to it. -/
def pfInit (b : ℤ) (numCpus : ℕ) : PFState :=
  { counter := b, active := Finset.range numCpus, invoked := [] }

/-- The integer range `[b, e)` as an increasing list. -/
def intRange (b e : ℤ) : List ℤ :=
  (List.range (e - b).toNat).map (fun i : ℕ => b + (i : ℤ))

/-- Invariant of the claim loop: the counter never drops below `begin`, the
invoked list is exactly the increasing range claimed so far, and once all
workers have stopped the counter has passed `end`. -/
def pfInv (b e : ℤ) (s : PFState) : Prop :=
  b ≤ s.counter ∧ s.invoked = intRange b (min s.counter e) ∧
    (s.active = ∅ → e ≤ s.counter)

/-- Parsed command-line state (main.cpp lines 63-90). -/
structure Config where
  pdbFilename : Option String
  outputPath : String
  gridSpacingText : String
  chains : String
  error : Bool
  listChains : Bool
deriving DecidableEq, Repr

/-- Defaults before parsing (main.cpp lines 64-69). -/
def initConfig : Config :=
  { pdbFilename := none, outputPath := "", gridSpacingText := "0.25",
    chains := "A-Z", error := false, listChains := false }

/-- Argument-parsing loop (main.cpp lines 71-90).  An option that needs a
value consumes the following argument when one exists (`i < argc-1`) and
otherwise falls through to the invalid-argument branch; a bare argument
becomes the pdb filename, flagging an error if one was already given. -/
def parseLoop : Config → List String → Config
  | cfg, [] => cfg
  | cfg, "--grid-spacing" :: v :: rest =>
    parseLoop { cfg with gridSpacingText := v } rest
  | cfg, "--chains" :: v :: rest => parseLoop { cfg with chains := v } rest
  | cfg, "-o" :: v :: rest => parseLoop { cfg with outputPath := v } rest
  | cfg, "--help" :: rest => parseLoop { cfg with error := true } rest
  | cfg, "--list-chains" :: rest =>
    parseLoop { cfg with listChains := true } rest
  | cfg, arg :: rest =>
    if arg.startsWith ("-") then parseLoop { cfg with error := true } rest
    else parseLoop { cfg with
      error := cfg.error || cfg.pdbFilename.isSome,
      pdbFilename := some arg } rest

/-- Characters after the last '/' or '\\' (main.cpp lines 312-316): the
running accumulator restarts at every path separator. -/
def basenameOf (l : List Char) : List Char :=
  l.foldl (fun acc c => if c = '/' ∨ c = '\\' then [] else acc ++ [c]) []

/-- Strip the basename from its last '.' on (main.cpp lines 313-322);
`last_dot` starts at the end of the string, so a dotless basename is kept
whole. -/
def stemOfBase (b : List Char) : List Char :=
  if '.' ∈ b then ((b.reverse.dropWhile (fun c => c != '.')).drop 1).reverse
  else b

/-- Stem of the input path: directory prefix and extension stripped. -/
def stemOf (s : String) : List Char := stemOfBase (basenameOf s.toList)

/-- Output file name `fmt("%s_%s_%s.fbx", stem.c_str(), chains,
grid_spacing_text)` (main.cpp line 324). -/
def outFilename (pdbFilename chains gridSpacingText : String) : String :=
  String.mk (stemOf pdbFilename) ++ "_" ++ chains ++ "_" ++ gridSpacingText
    ++ ".fbx"

/-- Output name of a successful run, read off the parsed configuration: the
stem of the pdb filename, the raw chains text and the raw spacing text.  The
parsed output path is consulted nowhere. -/
def outNameOfConfig (cfg : Config) : String :=
  match cfg.pdbFilename with
  | none => ""
  | some f => outFilename f cfg.chains cfg.gridSpacingText

/-- Real-valued 3-vector for the colour compositor (square roots force ℝ). -/
structure Vec3R where
  x : ℝ
  y : ℝ
  z : ℝ

/-- Real-valued RGBA colour. -/
structure Vec4R where
  x : ℝ
  y : ℝ
  z : ℝ
  w : ℝ

/-- Colored atom triple (color, position, radius) (main.cpp lines 154-158). -/
structure ColoredAtom where
  color : Vec4R
  pos : Vec3R
  radius : ℝ

/-- Real dot product on 3-vectors. -/
def dotR (a b : Vec3R) : ℝ := a.x * b.x + a.y * b.y + a.z * b.z

/-- Real componentwise difference. -/
def vsubR (a b : Vec3R) : Vec3R := ⟨a.x - b.x, a.y - b.y, a.z - b.z⟩

/-- Real squared distance. -/
def sqdistR (a b : Vec3R) : ℝ := dotR (vsubR a b) (vsubR a b)

/-- Real dot product on 4-vectors, as used by glm::normalize on a vec4. -/
def dot4 (a b : Vec4R) : ℝ := a.x * b.x + a.y * b.y + a.z * b.z + a.w * b.w

/-- One accumulation step of egen's loop (main.cpp lines 294-303): weight
`(r*r*4 - d2) * 1.0f`; when positive, clamp it to [0,1] and add
`color * weight` componentwise (alpha included) to the accumulator. -/
noncomputable def egenStep (xyz : Vec3R) (c : Vec4R) (a : ColoredAtom) : Vec4R :=
  if 0 < (a.radius * a.radius * 4 - sqdistR xyz a.pos) * 1 then
    ⟨c.x + a.color.x *
        max 0 (min ((a.radius * a.radius * 4 - sqdistR xyz a.pos) * 1) 1),
      c.y + a.color.y *
        max 0 (min ((a.radius * a.radius * 4 - sqdistR xyz a.pos) * 1) 1),
      c.z + a.color.z *
        max 0 (min ((a.radius * a.radius * 4 - sqdistR xyz a.pos) * 1) 1),
      c.w + a.color.w *
        max 0 (min ((a.radius * a.radius * 4 - sqdistR xyz a.pos) * 1) 1)⟩
  else c

/-- Accumulated colour before normalisation, seeded with opaque white
`glm::vec4(1, 1, 1, 1)` (main.cpp line 293). -/
noncomputable def egenAccum (atoms : List ColoredAtom) (xyz : Vec3R) : Vec4R :=
  atoms.foldl (egenStep xyz) ⟨1, 1, 1, 1⟩

/-- glm::normalize on a vec4: each component divided by the magnitude. -/
noncomputable def normalize4 (v : Vec4R) : Vec4R :=
  ⟨v.x / Real.sqrt (dot4 v v), v.y / Real.sqrt (dot4 v v),
    v.z / Real.sqrt (dot4 v v), v.w / Real.sqrt (dot4 v v)⟩

/-- Vertex colour produced by egen (main.cpp lines 289-308): accumulate,
zero the alpha, normalize, then force alpha back to 1. -/
noncomputable def egenColor (atoms : List ColoredAtom) (xyz : Vec3R) : Vec4R :=
  ⟨(normalize4 ⟨(egenAccum atoms xyz).x, (egenAccum atoms xyz).y,
      (egenAccum atoms xyz).z, 0⟩).x,
    (normalize4 ⟨(egenAccum atoms xyz).x, (egenAccum atoms xyz).y,
      (egenAccum atoms xyz).z, 0⟩).y,
    (normalize4 ⟨(egenAccum atoms xyz).x, (egenAccum atoms xyz).y,
      (egenAccum atoms xyz).z, 0⟩).z, 1⟩

/-- Specification-side reading of the final normalise-and-reopaque step. -/
noncomputable def specNormalizedOpaque (v : Vec4R) : Vec4R :=
  ⟨v.x / Real.sqrt (dot4 v v), v.y / Real.sqrt (dot4 v v),
    v.z / Real.sqrt (dot4 v v), 1⟩

section FoldMinLemmas

variable {α : Type} (g : α → ℚ)

theorem foldl_min_le_init (s : ℚ) (l : List α) :
    l.foldl (fun v a => min v (g a)) s ≤ s := by
  induction l generalizing s with
  | nil => exact le_refl s
  | cons b t ih => exact le_trans (ih (min s (g b))) (min_le_left _ _)

theorem foldl_min_le (s : ℚ) (l : List α) (a : α) (ha : a ∈ l) :
    l.foldl (fun v a => min v (g a)) s ≤ g a := by
  induction l generalizing s with
  | nil => cases ha
  | cons b t ih =>
    rcases List.mem_cons.mp ha with h | h
    · subst h
      exact le_trans (foldl_min_le_init g (min s (g a)) t) (min_le_right _ _)
    · exact ih _ h

theorem foldl_min_eq_init_or_mem (s : ℚ) (l : List α) :
    l.foldl (fun v a => min v (g a)) s = s ∨
      ∃ a ∈ l, l.foldl (fun v a => min v (g a)) s = g a := by
  induction l generalizing s with
  | nil => exact Or.inl rfl
  | cons b t ih =>
    rcases ih (min s (g b)) with h | ⟨a, ha, h⟩
    · rcases min_choice s (g b) with hm | hm
      · exact Or.inl (by rw [List.foldl_cons, h, hm])
      · exact Or.inr ⟨b, List.mem_cons_self b t, by rw [List.foldl_cons, h, hm]⟩
    · exact Or.inr ⟨a, List.mem_cons_of_mem b ha, h⟩

theorem foldl_max_ge_init (s : ℚ) (l : List α) :
    s ≤ l.foldl (fun v a => max v (g a)) s := by
  induction l generalizing s with
  | nil => exact le_refl s
  | cons b t ih => exact le_trans (le_max_left _ _) (ih (max s (g b)))

theorem foldl_max_ge (s : ℚ) (l : List α) (a : α) (ha : a ∈ l) :
    g a ≤ l.foldl (fun v a => max v (g a)) s := by
  induction l generalizing s with
  | nil => cases ha
  | cons b t ih =>
    rcases List.mem_cons.mp ha with h | h
    · subst h
      exact le_trans (le_max_right _ _) (foldl_max_ge_init g (max s (g a)) t)
    · exact ih _ h

theorem foldl_max_eq_init_or_mem (s : ℚ) (l : List α) :
    l.foldl (fun v a => max v (g a)) s = s ∨
      ∃ a ∈ l, l.foldl (fun v a => max v (g a)) s = g a := by
  induction l generalizing s with
  | nil => exact Or.inl rfl
  | cons b t ih =>
    rcases ih (max s (g b)) with h | ⟨a, ha, h⟩
    · rcases max_choice s (g b) with hm | hm
      · exact Or.inl (by rw [List.foldl_cons, h, hm])
      · exact Or.inr ⟨b, List.mem_cons_self b t, by rw [List.foldl_cons, h, hm]⟩
    · exact Or.inr ⟨a, List.mem_cons_of_mem b ha, h⟩

end FoldMinLemmas

/-- C3: accessible-field computation.  At every grid vertex the stored value
is the minimum over all atoms of `squared_distance(vertex, position[i]) -
(radius[i] + probe_radius)^2`; the running minimum starts at the very large
sentinel `1e37`, so with zero atoms the stored value is that sentinel. -/
theorem C3_accessible_field (atoms : List (Vec3 × ℚ)) (wr : ℚ) (mn : Vec3)
    (gs : ℚ) (x y z : ℕ)
    (hb : ∀ a ∈ atoms, atomValue (worldPos mn gs x y z) wr a ≤ bigSentinel)
    (hne : atoms ≠ []) :
    accessibleAt [] wr mn gs x y z = bigSentinel ∧
    IsLeast {v : ℚ | ∃ a ∈ atoms, v = atomValue (worldPos mn gs x y z) wr a}
      (accessibleAt atoms wr mn gs x y z) := by
  constructor
  · rfl
  · set xyz := worldPos mn gs x y z
    have hval : accessibleAt atoms wr mn gs x y z =
        atoms.foldl (fun v a => min v (atomValue xyz wr a)) bigSentinel := rfl
    constructor
    · rcases foldl_min_eq_init_or_mem (atomValue xyz wr) bigSentinel atoms with
        h | ⟨a, ha, h⟩
      · rcases List.exists_mem_of_ne_nil atoms hne with ⟨a0, ha0⟩
        have h1 := foldl_min_le (atomValue xyz wr) bigSentinel atoms a0 ha0
        have h2 : atomValue xyz wr a0 ≤
            atoms.foldl (fun v a => min v (atomValue xyz wr a)) bigSentinel := by
          rw [h]; exact hb a0 ha0
        exact ⟨a0, ha0, by rw [hval]; exact le_antisymm h1 h2⟩
      · exact ⟨a, ha, by rw [hval, h]⟩
    · rintro v ⟨a, ha, rfl⟩
      rw [hval]
      exact foldl_min_le (atomValue xyz wr) bigSentinel atoms a ha

/-- Witness for C3 at a concrete input: one atom of radius 1 at the origin,
probe radius 2, vertex at world position (3,0,0). -/
theorem C3_accessible_field_witness :
    accessibleAt ([] : List (Vec3 × ℚ)) 2 ⟨0, 0, 0⟩ 1 3 0 0 = bigSentinel ∧
    IsLeast {v : ℚ | ∃ a ∈ [((⟨0, 0, 0⟩ : Vec3), (1 : ℚ))],
        v = atomValue (worldPos ⟨0, 0, 0⟩ 1 3 0 0) 2 a}
      (accessibleAt [((⟨0, 0, 0⟩ : Vec3), (1 : ℚ))] 2 ⟨0, 0, 0⟩ 1 3 0 0) :=
  C3_accessible_field [(⟨0, 0, 0⟩, 1)] 2 ⟨0, 0, 0⟩ 1 3 0 0
    (by
      intro a ha
      simp only [List.mem_singleton] at ha
      subst ha
      norm_num [atomValue, sqdist, dot, vsub, worldPos, bigSentinel])
    (by simp)

/-- C2: excluded-field computation.  At a grid vertex whose accessible value
is non-negative the excluded value is exactly the sentinel `-(probe^2)` (and
hence is at least that sentinel); at an inside vertex with an empty filtered
band it falls back to the same sentinel; at an inside vertex with a nonempty
band (of realistically bounded squared distances) it is the minimum squared
distance to a band entry minus `probe^2`. -/
theorem C2_excluded_field (atoms : List (Vec3 × ℚ)) (zsorter : List Vec3)
    (wr : ℚ) (mn : Vec3) (gs : ℚ) (x y z : ℕ) :
    (0 ≤ accessibleAt atoms wr mn gs x y z →
      excludedAt atoms zsorter wr mn gs x y z = outsideValue wr) ∧
    (accessibleAt atoms wr mn gs x y z < 0 →
      bandQuery zsorter wr gs ((z : ℚ) * gs + mn.z) ((y : ℚ) * gs + mn.y) = [] →
      excludedAt atoms zsorter wr mn gs x y z = outsideValue wr) ∧
    (accessibleAt atoms wr mn gs x y z < 0 →
      bandQuery zsorter wr gs ((z : ℚ) * gs + mn.z) ((y : ℚ) * gs + mn.y) ≠ [] →
      (∀ r ∈ bandQuery zsorter wr gs ((z : ℚ) * gs + mn.z) ((y : ℚ) * gs + mn.y),
        sqdist (worldPos mn gs x y z) r < bigSentinel) →
      IsLeast {d : ℚ | ∃ r ∈ bandQuery zsorter wr gs ((z : ℚ) * gs + mn.z)
          ((y : ℚ) * gs + mn.y), d = sqdist (worldPos mn gs x y z) r}
        (excludedAt atoms zsorter wr mn gs x y z + wr * wr)) ∧
    (0 ≤ accessibleAt atoms wr mn gs x y z →
      outsideValue wr ≤ excludedAt atoms zsorter wr mn gs x y z) := by
  set acc := accessibleAt atoms wr mn gs x y z with hacc
  set band := bandQuery zsorter wr gs ((z : ℚ) * gs + mn.z) ((y : ℚ) * gs + mn.y)
    with hband
  set xyz := worldPos mn gs x y z with hxyz
  have hdef : excludedAt atoms zsorter wr mn gs x y z =
      excludedValue acc band xyz wr := rfl
  refine ⟨?_, ?_, ?_, ?_⟩
  · intro h
    rw [hdef, excludedValue, if_neg (not_lt.mpr h)]
  · intro h hempty
    rw [hdef, excludedValue, if_pos h, hempty]
    simp
  · intro h hne hb
    have hval : excludedValue acc band xyz wr =
        (if band.foldl (fun v r => min v (sqdist xyz r)) bigSentinel = bigSentinel
          then outsideValue wr
          else band.foldl (fun v r => min v (sqdist xyz r)) bigSentinel - wr * wr) := by
      rw [excludedValue, if_pos h]
    rcases List.exists_mem_of_ne_nil band hne with ⟨r0, hr0⟩
    have hlt : band.foldl (fun v r => min v (sqdist xyz r)) bigSentinel <
        bigSentinel :=
      lt_of_le_of_lt (foldl_min_le (fun r => sqdist xyz r) bigSentinel band r0 hr0)
        (hb r0 hr0)
    have hne' : band.foldl (fun v r => min v (sqdist xyz r)) bigSentinel ≠
        bigSentinel := ne_of_lt hlt
    have hres : excludedAt atoms zsorter wr mn gs x y z + wr * wr =
        band.foldl (fun v r => min v (sqdist xyz r)) bigSentinel := by
      rw [hdef, hval, if_neg hne']
      ring
    rw [hres]
    constructor
    · rcases foldl_min_eq_init_or_mem (fun r => sqdist xyz r) bigSentinel band with
        hcase | ⟨r, hr, hcase⟩
      · exact absurd hcase hne'
      · exact ⟨r, hr, hcase⟩
    · rintro v ⟨r, hr, rfl⟩
      exact foldl_min_le (fun r => sqdist xyz r) bigSentinel band r hr
  · intro h
    rw [hdef, excludedValue, if_neg (not_lt.mpr h)]

/-- Witness for C2 at a concrete input: one atom of radius 1 at the origin,
probe radius 2, grid corner at the origin, spacing 1, vertex (0,0,0), and a
single accessible-surface point at the origin. -/
theorem C2_excluded_field_witness :
    IsLeast {d : ℚ | ∃ r ∈ bandQuery [v0] 2 1 ((0 : ℕ) * 1 + v0.z)
        ((0 : ℕ) * 1 + v0.y), d = sqdist (worldPos v0 1 0 0 0) r}
      (excludedAt [(v0, 1)] [v0] 2 v0 1 0 0 0 + 2 * 2) :=
  (C2_excluded_field [(v0, 1)] [v0] 2 v0 1 0 0 0).2.2.1
    (by norm_num [accessibleAt, accessibleValue, atomValue, sqdist, dot, vsub,
      worldPos, v0, bigSentinel])
    (by norm_num [bandQuery, yFilter, zSub, lowerBoundZ, upperBoundZ, lbAux,
      ubAux, v0, List.getD, List.filter])
    (by norm_num [bandQuery, yFilter, zSub, lowerBoundZ, upperBoundZ, lbAux,
      ubAux, v0, List.getD, List.filter, sqdist, dot, vsub, worldPos,
      bigSentinel])

/-- Sortedness transferred to default-completed indexed reads. -/
theorem sorted_getD_mono (l : List Vec3)
    (hs : l.Pairwise (fun a b : Vec3 => a.z ≤ b.z)) (i j : ℕ) (hij : i ≤ j)
    (hj : j < l.length) : (l.getD i v0).z ≤ (l.getD j v0).z := by
  rcases Nat.lt_or_ge i j with h | h
  · have hi : i < l.length := lt_trans h hj
    rw [List.getD_eq_getElem l v0 hi, List.getD_eq_getElem l v0 hj]
    exact (List.pairwise_iff_getElem.mp hs) i j hi hj h
  · have heq : i = j := le_antisymm hij h
    subst heq
    exact le_refl _

/-- Partition-point characterisation of the `std::lower_bound` loop on a
z-sorted window. -/
theorem lbAux_spec (l : List Vec3) (zval : ℚ)
    (hs : l.Pairwise (fun a b : Vec3 => a.z ≤ b.z)) :
    ∀ fuel count first, count ≤ fuel → first + count ≤ l.length →
    (∀ j, j < first → (l.getD j v0).z < zval) →
    (∀ j, first + count ≤ j → j < l.length → ¬ (l.getD j v0).z < zval) →
    first ≤ lbAux l zval fuel first count ∧
    lbAux l zval fuel first count ≤ first + count ∧
    (∀ j, j < lbAux l zval fuel first count → (l.getD j v0).z < zval) ∧
    (∀ j, lbAux l zval fuel first count ≤ j → j < l.length →
      ¬ (l.getD j v0).z < zval) := by
  intro fuel
  induction fuel with
  | zero =>
    intro count first hcf hlen ha hb
    have hc0 : count = 0 := Nat.le_zero.mp hcf
    subst hc0
    have hr : lbAux l zval 0 first 0 = first := rfl
    rw [hr]
    exact ⟨le_refl _, Nat.le_add_right _ _, ha,
      fun j hj hjl => hb j (by omega) hjl⟩
  | succ fuel ih =>
    intro count first hcf hlen ha hb
    match count with
    | 0 =>
      have hr : lbAux l zval (fuel + 1) first 0 = first := rfl
      rw [hr]
      exact ⟨le_refl _, Nat.le_add_right _ _, ha,
        fun j hj hjl => hb j (by omega) hjl⟩
    | n + 1 =>
      have hstep : (n + 1) / 2 ≤ n := by omega
      have haccess : first + (n + 1) / 2 < l.length := by omega
      by_cases hc : (l.getD (first + (n + 1) / 2) v0).z < zval
      · have heq : lbAux l zval (fuel + 1) first (n + 1) =
            lbAux l zval fuel (first + (n + 1) / 2 + 1) (n - (n + 1) / 2) := by
          simp only [lbAux, hc, if_true]
        rw [heq]
        have ha' : ∀ j, j < first + (n + 1) / 2 + 1 → (l.getD j v0).z < zval := by
          intro j hj
          rcases Nat.lt_or_ge j first with h | h
          · exact ha j h
          · exact lt_of_le_of_lt
              (sorted_getD_mono l hs j (first + (n + 1) / 2) (by omega) haccess) hc
        have hb' : ∀ j, first + (n + 1) / 2 + 1 + (n - (n + 1) / 2) ≤ j →
            j < l.length → ¬ (l.getD j v0).z < zval := by
          intro j hj hjl
          exact hb j (by omega) hjl
        obtain ⟨h1, h2, h3, h4⟩ := ih (n - (n + 1) / 2) (first + (n + 1) / 2 + 1)
          (by omega) (by omega) ha' hb'
        exact ⟨by omega, by omega, h3, h4⟩
      · have heq : lbAux l zval (fuel + 1) first (n + 1) =
            lbAux l zval fuel first ((n + 1) / 2) := by
          simp only [lbAux, hc, if_false]
        rw [heq]
        have hb' : ∀ j, first + (n + 1) / 2 ≤ j → j < l.length →
            ¬ (l.getD j v0).z < zval := by
          intro j hj hjl
          exact fun hlt => hc (lt_of_le_of_lt
            (sorted_getD_mono l hs (first + (n + 1) / 2) j hj hjl) hlt)
        obtain ⟨h1, h2, h3, h4⟩ := ih ((n + 1) / 2) first (by omega) (by omega)
          ha hb'
        exact ⟨h1, by omega, h3, h4⟩

/-- Partition-point characterisation of the `std::upper_bound` loop on a
z-sorted window. -/
theorem ubAux_spec (l : List Vec3) (zval : ℚ)
    (hs : l.Pairwise (fun a b : Vec3 => a.z ≤ b.z)) :
    ∀ fuel count first, count ≤ fuel → first + count ≤ l.length →
    (∀ j, j < first → ¬ zval < (l.getD j v0).z) →
    (∀ j, first + count ≤ j → j < l.length → zval < (l.getD j v0).z) →
    first ≤ ubAux l zval fuel first count ∧
    ubAux l zval fuel first count ≤ first + count ∧
    (∀ j, j < ubAux l zval fuel first count → ¬ zval < (l.getD j v0).z) ∧
    (∀ j, ubAux l zval fuel first count ≤ j → j < l.length →
      zval < (l.getD j v0).z) := by
  intro fuel
  induction fuel with
  | zero =>
    intro count first hcf hlen ha hb
    have hc0 : count = 0 := Nat.le_zero.mp hcf
    subst hc0
    have hr : ubAux l zval 0 first 0 = first := rfl
    rw [hr]
    exact ⟨le_refl _, Nat.le_add_right _ _, ha,
      fun j hj hjl => hb j (by omega) hjl⟩
  | succ fuel ih =>
    intro count first hcf hlen ha hb
    match count with
    | 0 =>
      have hr : ubAux l zval (fuel + 1) first 0 = first := rfl
      rw [hr]
      exact ⟨le_refl _, Nat.le_add_right _ _, ha,
        fun j hj hjl => hb j (by omega) hjl⟩
    | n + 1 =>
      have hstep : (n + 1) / 2 ≤ n := by omega
      have haccess : first + (n + 1) / 2 < l.length := by omega
      by_cases hc : zval < (l.getD (first + (n + 1) / 2) v0).z
      · have heq : ubAux l zval (fuel + 1) first (n + 1) =
            ubAux l zval fuel first ((n + 1) / 2) := by
          simp only [ubAux, hc, if_true]
        rw [heq]
        have hb' : ∀ j, first + (n + 1) / 2 ≤ j → j < l.length →
            zval < (l.getD j v0).z := by
          intro j hj hjl
          exact lt_of_lt_of_le hc
            (sorted_getD_mono l hs (first + (n + 1) / 2) j hj hjl)
        obtain ⟨h1, h2, h3, h4⟩ := ih ((n + 1) / 2) first (by omega) (by omega)
          ha hb'
        exact ⟨h1, by omega, h3, h4⟩
      · have heq : ubAux l zval (fuel + 1) first (n + 1) =
            ubAux l zval fuel (first + (n + 1) / 2 + 1) (n - (n + 1) / 2) := by
          simp only [ubAux, hc, if_false]
        rw [heq]
        have ha' : ∀ j, j < first + (n + 1) / 2 + 1 → ¬ zval < (l.getD j v0).z := by
          intro j hj
          rcases Nat.lt_or_ge j first with h | h
          · exact ha j h
          · exact fun hlt => hc (lt_of_lt_of_le hlt
              (sorted_getD_mono l hs j (first + (n + 1) / 2) (by omega) haccess))
        have hb' : ∀ j, first + (n + 1) / 2 + 1 + (n - (n + 1) / 2) ≤ j →
            j < l.length → zval < (l.getD j v0).z := by
          intro j hj hjl
          exact hb j (by omega) hjl
        obtain ⟨h1, h2, h3, h4⟩ := ih (n - (n + 1) / 2) (first + (n + 1) / 2 + 1)
          (by omega) (by omega) ha' hb'
        exact ⟨by omega, by omega, h3, h4⟩

/-- Specification of `lowerBoundZ` on a z-sorted list. -/
theorem lowerBoundZ_spec (l : List Vec3) (zval : ℚ)
    (hs : l.Pairwise (fun a b : Vec3 => a.z ≤ b.z)) :
    lowerBoundZ l zval ≤ l.length ∧
    (∀ j, j < lowerBoundZ l zval → (l.getD j v0).z < zval) ∧
    (∀ j, lowerBoundZ l zval ≤ j → j < l.length → zval ≤ (l.getD j v0).z) := by
  obtain ⟨h1, h2, h3, h4⟩ := lbAux_spec l zval hs l.length l.length 0
    (le_refl _) (by omega) (by omega) (by omega)
  exact ⟨by simpa [lowerBoundZ] using h2, h3,
    fun j hj hjl => not_lt.mp (h4 j hj hjl)⟩

/-- Specification of `upperBoundZ` on a z-sorted list. -/
theorem upperBoundZ_spec (l : List Vec3) (zval : ℚ)
    (hs : l.Pairwise (fun a b : Vec3 => a.z ≤ b.z)) :
    upperBoundZ l zval ≤ l.length ∧
    (∀ j, j < upperBoundZ l zval → (l.getD j v0).z ≤ zval) ∧
    (∀ j, upperBoundZ l zval ≤ j → j < l.length → zval < (l.getD j v0).z) := by
  obtain ⟨h1, h2, h3, h4⟩ := ubAux_spec l zval hs l.length l.length 0
    (le_refl _) (by omega) (by omega) (by omega)
  exact ⟨by simpa [upperBoundZ] using h2,
    fun j hj => not_lt.mp (h3 j hj), h4⟩

/-- On a z-sorted list, the binary-searched iterator sub-range equals a
linear filter of the whole list by the inclusive z interval. -/
theorem zSub_eq_filter (l : List Vec3) (zlo zhi : ℚ)
    (hs : l.Pairwise (fun a b : Vec3 => a.z ≤ b.z)) :
    zSub l zlo zhi =
      l.filter (fun r => decide (zlo ≤ r.z) && decide (r.z ≤ zhi)) := by
  obtain ⟨hlbl, hlb1, hlb2⟩ := lowerBoundZ_spec l zlo hs
  obtain ⟨hubl, hub1, hub2⟩ := upperBoundZ_spec l zhi hs
  set lb := lowerBoundZ l zlo with hlbdef
  set ub := upperBoundZ l zhi with hubdef
  by_cases hle : lb ≤ ub
  · have hdrop : l.drop lb = (l.drop lb).take (ub - lb) ++ l.drop ub := by
      conv_lhs => rw [← List.take_append_drop (ub - lb) (l.drop lb)]
      rw [List.drop_drop]
      have harith : lb + (ub - lb) = ub := by omega
      rw [harith]
    have hsplit : l = l.take lb ++ ((l.drop lb).take (ub - lb) ++ l.drop ub) := by
      conv_lhs => rw [← List.take_append_drop lb l, hdrop]
    have hfilter1 : (l.take lb).filter
        (fun r => decide (zlo ≤ r.z) && decide (r.z ≤ zhi)) = [] := by
      rw [List.filter_eq_nil_iff]
      intro a ha
      obtain ⟨i, hi, hget⟩ := List.mem_iff_getElem.mp ha
      have hilb : i < lb := by
        have := hi
        rw [List.length_take] at this
        omega
      have hil : i < l.length := by
        have := hi
        rw [List.length_take] at this
        omega
      have hai : a = l.getD i v0 := by
        rw [List.getD_eq_getElem l v0 hil, ← List.getElem_take l, hget]
      have hz : a.z < zlo := hai ▸ hlb1 i hilb
      simp [not_le.mpr hz]
    have hfilter2 : ((l.drop lb).take (ub - lb)).filter
        (fun r => decide (zlo ≤ r.z) && decide (r.z ≤ zhi)) =
        (l.drop lb).take (ub - lb) := by
      rw [List.filter_eq_self]
      intro a ha
      obtain ⟨i, hi, hget⟩ := List.mem_iff_getElem.mp ha
      have hlen : i < ub - lb ∧ lb + i < l.length := by
        have := hi
        rw [List.length_take, List.length_drop] at this
        omega
      have hai : a = l.getD (lb + i) v0 := by
        rw [List.getD_eq_getElem l v0 hlen.2, ← List.getElem_drop l,
          ← List.getElem_take (l.drop lb), hget]
      have hz1 : zlo ≤ a.z := hai ▸ hlb2 (lb + i) (by omega) hlen.2
      have hz2 : a.z ≤ zhi := hai ▸ hub1 (lb + i) (by omega)
      simp [hz1, hz2]
    have hfilter3 : (l.drop ub).filter
        (fun r => decide (zlo ≤ r.z) && decide (r.z ≤ zhi)) = [] := by
      rw [List.filter_eq_nil_iff]
      intro a ha
      obtain ⟨i, hi, hget⟩ := List.mem_iff_getElem.mp ha
      have hil : ub + i < l.length := by
        have := hi
        rw [List.length_drop] at this
        omega
      have hai : a = l.getD (ub + i) v0 := by
        rw [List.getD_eq_getElem l v0 hil, ← List.getElem_drop l, hget]
      have hz : zhi < a.z := hai ▸ hub2 (ub + i) (by omega) hil
      simp [not_le.mpr hz]
    calc zSub l zlo zhi = (l.drop lb).take (ub - lb) := rfl
      _ = l.filter (fun r => decide (zlo ≤ r.z) && decide (r.z ≤ zhi)) := by
        conv_rhs => rw [hsplit]
        rw [List.filter_append, List.filter_append, hfilter1, hfilter2, hfilter3]
        simp
  · have hz : ub - lb = 0 := by omega
    have hnil : zSub l zlo zhi = [] := by
      show (l.drop lb).take (ub - lb) = []
      rw [hz, List.take_zero]
    rw [hnil]
    symm
    rw [List.filter_eq_nil_iff]
    intro a ha
    obtain ⟨i, hi, hget⟩ := List.mem_iff_getElem.mp ha
    have hai : a = l.getD i v0 := by
      rw [List.getD_eq_getElem l v0 hi, hget]
    rcases Nat.lt_or_ge i lb with h | h
    · have hzlt : a.z < zlo := hai ▸ hlb1 i h
      simp [not_le.mpr hzlt]
    · have hzgt : zhi < a.z := hai ▸ hub2 i (by omega) hi
      simp [not_le.mpr hzgt]

/-- C5: band-index query equivalence.  For every z-sorted point sequence,
target (z,y) and margin `water_radius + grid_spacing`, the two-stage query
(binary search on z, then linear y filter) returns exactly the same sequence
of points — in particular the same multiset — as a brute-force linear scan
of the full set with the same z and y bounds. -/
theorem C5_band_query_equiv (zsorter : List Vec3) (wr gs zpos ypos : ℚ)
    (hs : zsorter.Pairwise (fun a b : Vec3 => a.z ≤ b.z)) :
    bandQuery zsorter wr gs zpos ypos = bruteScan zsorter wr gs zpos ypos ∧
    (bandQuery zsorter wr gs zpos ypos : Multiset Vec3) =
      (bruteScan zsorter wr gs zpos ypos : Multiset Vec3) := by
  have hmain : bandQuery zsorter wr gs zpos ypos =
      bruteScan zsorter wr gs zpos ypos := by
    rw [bandQuery, yFilter, zSub_eq_filter _ _ _ hs, List.filter_filter,
      bruteScan]
    exact List.filter_congr (fun a _ => by
      cases h1 : decide (zpos - (wr + gs) ≤ a.z) <;>
        cases h2 : decide (a.z ≤ zpos + (wr + gs)) <;>
        cases h3 : decide (|a.y - ypos| ≤ wr + gs) <;> rfl)
  exact ⟨hmain, by rw [hmain]⟩

/-- Witness for C5 at a concrete input: three sorted points, margin 3/2. -/
theorem C5_band_query_equiv_witness :
    bandQuery [⟨0, 0, 0⟩, ⟨1, 1, 1⟩, ⟨9, 9, 9⟩] 1 (1/2) 1 0 =
      bruteScan [⟨0, 0, 0⟩, ⟨1, 1, 1⟩, ⟨9, 9, 9⟩] 1 (1/2) 1 0 :=
  (C5_band_query_equiv [⟨0, 0, 0⟩, ⟨1, 1, 1⟩, ⟨9, 9, 9⟩] 1 (1/2) 1 0
    (by norm_num [List.pairwise_cons])).1

/-- C1 evaluation at the failing inputs: the code expands "A-C" to the run
from '-' (code 45) up to 'C' — 23 identifiers starting at '-', '.', '/',
'0'… — never to ['A','B','C']; "C-A" also takes the range branch (since
'A' >= '-') and is not empty; only the rangeless "AC" behaves as claimed. -/
theorem C1_chain_selector_eval :
    expandChains ['A', '-', 'C'] ≠ ['A', 'B', 'C'] ∧
    expandChains ['A', '-', 'C'] = charRange '-' 'C' ∧
    expandChains ['C', '-', 'A'] ≠ [] ∧
    expandChains ['C', '-', 'A'] = charRange '-' 'A' ∧
    expandChains ['A', 'C'] = ['A', 'C'] := by
  refine ⟨?_, rfl, ?_, rfl, rfl⟩ <;> decide

/-- C7 evaluation at the failing input: a selector whose chains carry no
atoms.  The aggregation yields the empty atom list and the code then runs
straight into the bounding-box fold, which has no defined value on an empty
selection (`pos[0]` is out of bounds); no emptiness check or error report
stands between the two stages in the source. -/
theorem C7_empty_selection_unguarded :
    aggregatePos ['Q'] (fun _ => []) = [] ∧
    boundingBox (aggregatePos ['Q'] (fun _ => [])) [] = none ∧
    gridExtents (aggregatePos ['Q'] (fun _ => [])) [] 2 (1/4) = none :=
  ⟨rfl, rfl, rfl⟩

/-- Componentwise reading of the vmin fold used by the bounding box. -/
theorem foldl_vmin_comp (c : Vec3 → ℚ)
    (hc : ∀ a b : Vec3, c (vmin a b) = min (c a) (c b))
    (hcs : ∀ (v : Vec3) (s : ℚ), c (vsubS v s) = c v - s)
    (pr : List (Vec3 × ℚ)) (init : Vec3) :
    c (pr.foldl (fun m a => vmin m (vsubS a.1 a.2)) init) =
      pr.foldl (fun m a => min m (c a.1 - a.2)) (c init) := by
  induction pr generalizing init with
  | nil => rfl
  | cons b t ih =>
    rw [List.foldl_cons, List.foldl_cons, ih, hc, hcs]

/-- Componentwise reading of the vmax fold used by the bounding box. -/
theorem foldl_vmax_comp (c : Vec3 → ℚ)
    (hc : ∀ a b : Vec3, c (vmax a b) = max (c a) (c b))
    (hcs : ∀ (v : Vec3) (s : ℚ), c (vaddS v s) = c v + s)
    (pr : List (Vec3 × ℚ)) (init : Vec3) :
    c (pr.foldl (fun m a => vmax m (vaddS a.1 a.2)) init) =
      pr.foldl (fun m a => max m (c a.1 + a.2)) (c init) := by
  induction pr generalizing init with
  | nil => rfl
  | cons b t ih =>
    rw [List.foldl_cons, List.foldl_cons, ih, hc, hcs]

/-- The truncating int cast agrees with floor on non-negative arguments, so
each dimension is `floor((max - min) / spacing) + 1`. -/
theorem dim_eq_floor (lo hi gs : ℚ) (hle : lo ≤ hi) (hgs : 0 < gs) :
    cppTrunc ((hi - lo) * (1 / gs) + 1) = ⌊(hi - lo) / gs⌋ + 1 := by
  have h0 : 0 ≤ (hi - lo) / gs := div_nonneg (by linarith) (le_of_lt hgs)
  have h1 : (hi - lo) * (1 / gs) = (hi - lo) / gs := by
    rw [one_div, div_eq_mul_inv]
  rw [cppTrunc, h1, if_pos (by linarith), Int.floor_add_one]

/-- The bounding-box vmin fold computes the true componentwise minimum of
`position - radius` over the zipped atoms, despite being seeded with
`pos[0]` rather than `pos[0] - radii[0]`, because radii are non-negative. -/
theorem bbox_min_comp_isLeast (c : Vec3 → ℚ)
    (hc : ∀ a b : Vec3, c (vmin a b) = min (c a) (c b))
    (hcs : ∀ (v : Vec3) (s : ℚ), c (vsubS v s) = c v - s)
    (p0 : Vec3) (r0 : ℚ) (pr : List (Vec3 × ℚ))
    (hmem0 : (p0, r0) ∈ pr) (hr0 : 0 ≤ r0) :
    IsLeast {v : ℚ | ∃ a ∈ pr, v = c a.1 - a.2}
      (c (pr.foldl (fun m a => vmin m (vsubS a.1 a.2)) p0)) := by
  have hcomp := foldl_vmin_comp c hc hcs pr p0
  constructor
  · rcases foldl_min_eq_init_or_mem (fun a : Vec3 × ℚ => c a.1 - a.2) (c p0) pr
      with h | ⟨a, ha, h⟩
    · refine ⟨(p0, r0), hmem0, ?_⟩
      have h1 : c (pr.foldl (fun m a => vmin m (vsubS a.1 a.2)) p0) ≤ c p0 - r0 := by
        rw [hcomp]
        exact foldl_min_le _ (c p0) pr (p0, r0) hmem0
      have h3 : c (pr.foldl (fun m a => vmin m (vsubS a.1 a.2)) p0) = c p0 := by
        rw [hcomp, h]
      linarith
    · exact ⟨a, ha, by rw [hcomp, h]⟩
  · rintro v ⟨a, ha, rfl⟩
    rw [hcomp]
    exact foldl_min_le _ (c p0) pr a ha

/-- Dual of `bbox_min_comp_isLeast` for the vmax fold over `position + radius`. -/
theorem bbox_max_comp_isGreatest (c : Vec3 → ℚ)
    (hc : ∀ a b : Vec3, c (vmax a b) = max (c a) (c b))
    (hcs : ∀ (v : Vec3) (s : ℚ), c (vaddS v s) = c v + s)
    (p0 : Vec3) (r0 : ℚ) (pr : List (Vec3 × ℚ))
    (hmem0 : (p0, r0) ∈ pr) (hr0 : 0 ≤ r0) :
    IsGreatest {v : ℚ | ∃ a ∈ pr, v = c a.1 + a.2}
      (c (pr.foldl (fun m a => vmax m (vaddS a.1 a.2)) p0)) := by
  have hcomp := foldl_vmax_comp c hc hcs pr p0
  constructor
  · rcases foldl_max_eq_init_or_mem (fun a : Vec3 × ℚ => c a.1 + a.2) (c p0) pr
      with h | ⟨a, ha, h⟩
    · refine ⟨(p0, r0), hmem0, ?_⟩
      have h1 : c p0 + r0 ≤ c (pr.foldl (fun m a => vmax m (vaddS a.1 a.2)) p0) := by
        rw [hcomp]
        exact foldl_max_ge _ (c p0) pr (p0, r0) hmem0
      have h3 : c (pr.foldl (fun m a => vmax m (vaddS a.1 a.2)) p0) = c p0 := by
        rw [hcomp, h]
      linarith
    · exact ⟨a, ha, by rw [hcomp, h]⟩
  · rintro v ⟨a, ha, rfl⟩
    rw [hcomp]
    exact foldl_max_ge _ (c p0) pr a ha

/-- The `max_radius` fold from 0 is the greatest radius when the list is
nonempty and all radii are non-negative. -/
theorem maxRadius_isGreatest (radii : List ℚ) (hne : radii ≠ [])
    (hr : ∀ r ∈ radii, 0 ≤ r) :
    IsGreatest {r : ℚ | r ∈ radii} (maxRadius radii) := by
  have hdef : maxRadius radii = radii.foldl (fun m r => max m r) 0 := rfl
  constructor
  · rcases foldl_max_eq_init_or_mem (fun r : ℚ => r) 0 radii with h | ⟨r, hrm, h⟩
    · rcases List.exists_mem_of_ne_nil radii hne with ⟨r1, hr1⟩
      have h1 : r1 ≤ maxRadius radii := by
        rw [hdef]
        exact foldl_max_ge _ 0 radii r1 hr1
      have h2 : maxRadius radii = 0 := by rw [hdef, h]
      have h3 : 0 ≤ r1 := hr r1 hr1
      have h4 : maxRadius radii = r1 := by linarith
      show maxRadius radii ∈ radii
      rw [h4]
      exact hr1
    · show maxRadius radii ∈ radii
      rw [hdef, h]
      exact hrm
  · intro r hrm
    rw [hdef]
    exact foldl_max_ge _ 0 radii r hrm

/-- C8: grid extent calculation.  For a non-empty atom set with non-negative
radii, non-negative probe radius and positive spacing, the produced minimum
corner plus the padding `probe + max_radius` is the elementwise minimum of
`position - radius` over the atoms (and symmetrically for the maximum
corner), `max_radius` is the greatest atom radius, and every integer
dimension equals `floor((max - min) / spacing) + 1` on its axis. -/
theorem C8_grid_extents (p0 : Vec3) (pt : List Vec3) (r0 : ℚ) (rt : List ℚ)
    (wr gs : ℚ) (hr : ∀ r ∈ r0 :: rt, 0 ≤ r) (hwr : 0 ≤ wr) (hgs : 0 < gs) :
    ∃ g : GridExtents,
      gridExtents (p0 :: pt) (r0 :: rt) wr gs = some g ∧
      IsGreatest {r : ℚ | r ∈ r0 :: rt} (maxRadius (r0 :: rt)) ∧
      IsLeast {v : ℚ | ∃ a ∈ (p0 :: pt).zip (r0 :: rt), v = a.1.x - a.2}
        (g.mn.x + (wr + maxRadius (r0 :: rt))) ∧
      IsLeast {v : ℚ | ∃ a ∈ (p0 :: pt).zip (r0 :: rt), v = a.1.y - a.2}
        (g.mn.y + (wr + maxRadius (r0 :: rt))) ∧
      IsLeast {v : ℚ | ∃ a ∈ (p0 :: pt).zip (r0 :: rt), v = a.1.z - a.2}
        (g.mn.z + (wr + maxRadius (r0 :: rt))) ∧
      IsGreatest {v : ℚ | ∃ a ∈ (p0 :: pt).zip (r0 :: rt), v = a.1.x + a.2}
        (g.mx.x - (wr + maxRadius (r0 :: rt))) ∧
      IsGreatest {v : ℚ | ∃ a ∈ (p0 :: pt).zip (r0 :: rt), v = a.1.y + a.2}
        (g.mx.y - (wr + maxRadius (r0 :: rt))) ∧
      IsGreatest {v : ℚ | ∃ a ∈ (p0 :: pt).zip (r0 :: rt), v = a.1.z + a.2}
        (g.mx.z - (wr + maxRadius (r0 :: rt))) ∧
      g.xdim = ⌊(g.mx.x - g.mn.x) / gs⌋ + 1 ∧
      g.ydim = ⌊(g.mx.y - g.mn.y) / gs⌋ + 1 ∧
      g.zdim = ⌊(g.mx.z - g.mn.z) / gs⌋ + 1 := by
  have hr0 : 0 ≤ r0 := hr r0 (List.mem_cons_self r0 rt)
  set pr := (p0 :: pt).zip (r0 :: rt) with hprdef
  have hmem0 : (p0, r0) ∈ pr := by
    rw [hprdef, List.zip_cons_cons]
    exact List.mem_cons_self _ _
  set mr := maxRadius (r0 :: rt) with hmrdef
  set mn0 := pr.foldl (fun m a => vmin m (vsubS a.1 a.2)) p0 with hmn0def
  set mx0 := pr.foldl (fun m a => vmax m (vaddS a.1 a.2)) p0 with hmx0def
  have hmrpos : 0 ≤ mr := by
    rw [hmrdef]
    exact foldl_max_ge_init (fun r : ℚ => r) 0 (r0 :: rt)
  have hmn0x : mn0.x ≤ p0.x := by
    rw [hmn0def, foldl_vmin_comp Vec3.x (fun a b => rfl) (fun v s => rfl) pr p0]
    exact foldl_min_le_init _ p0.x pr
  have hmn0y : mn0.y ≤ p0.y := by
    rw [hmn0def, foldl_vmin_comp Vec3.y (fun a b => rfl) (fun v s => rfl) pr p0]
    exact foldl_min_le_init _ p0.y pr
  have hmn0z : mn0.z ≤ p0.z := by
    rw [hmn0def, foldl_vmin_comp Vec3.z (fun a b => rfl) (fun v s => rfl) pr p0]
    exact foldl_min_le_init _ p0.z pr
  have hmx0x : p0.x ≤ mx0.x := by
    rw [hmx0def, foldl_vmax_comp Vec3.x (fun a b => rfl) (fun v s => rfl) pr p0]
    exact foldl_max_ge_init _ p0.x pr
  have hmx0y : p0.y ≤ mx0.y := by
    rw [hmx0def, foldl_vmax_comp Vec3.y (fun a b => rfl) (fun v s => rfl) pr p0]
    exact foldl_max_ge_init _ p0.y pr
  have hmx0z : p0.z ≤ mx0.z := by
    rw [hmx0def, foldl_vmax_comp Vec3.z (fun a b => rfl) (fun v s => rfl) pr p0]
    exact foldl_max_ge_init _ p0.z pr
  refine ⟨⟨vsubS mn0 (wr + mr), vaddS mx0 (wr + mr),
    cppTrunc (((vaddS mx0 (wr + mr)).x - (vsubS mn0 (wr + mr)).x) * (1 / gs) + 1),
    cppTrunc (((vaddS mx0 (wr + mr)).y - (vsubS mn0 (wr + mr)).y) * (1 / gs) + 1),
    cppTrunc (((vaddS mx0 (wr + mr)).z - (vsubS mn0 (wr + mr)).z) * (1 / gs) + 1)⟩,
    ?_, ?_, ?_, ?_, ?_, ?_, ?_, ?_, ?_, ?_, ?_⟩
  · rfl
  · exact maxRadius_isGreatest (r0 :: rt) (List.cons_ne_nil r0 rt) hr
  · have e : (vsubS mn0 (wr + mr)).x + (wr + mr) = mn0.x := by
      simp [vsubS]
    rw [e, hmn0def]
    exact bbox_min_comp_isLeast Vec3.x (fun a b => rfl) (fun v s => rfl)
      p0 r0 pr hmem0 hr0
  · have e : (vsubS mn0 (wr + mr)).y + (wr + mr) = mn0.y := by
      simp [vsubS]
    rw [e, hmn0def]
    exact bbox_min_comp_isLeast Vec3.y (fun a b => rfl) (fun v s => rfl)
      p0 r0 pr hmem0 hr0
  · have e : (vsubS mn0 (wr + mr)).z + (wr + mr) = mn0.z := by
      simp [vsubS]
    rw [e, hmn0def]
    exact bbox_min_comp_isLeast Vec3.z (fun a b => rfl) (fun v s => rfl)
      p0 r0 pr hmem0 hr0
  · have e : (vaddS mx0 (wr + mr)).x - (wr + mr) = mx0.x := by
      simp [vaddS]
    rw [e, hmx0def]
    exact bbox_max_comp_isGreatest Vec3.x (fun a b => rfl) (fun v s => rfl)
      p0 r0 pr hmem0 hr0
  · have e : (vaddS mx0 (wr + mr)).y - (wr + mr) = mx0.y := by
      simp [vaddS]
    rw [e, hmx0def]
    exact bbox_max_comp_isGreatest Vec3.y (fun a b => rfl) (fun v s => rfl)
      p0 r0 pr hmem0 hr0
  · have e : (vaddS mx0 (wr + mr)).z - (wr + mr) = mx0.z := by
      simp [vaddS]
    rw [e, hmx0def]
    exact bbox_max_comp_isGreatest Vec3.z (fun a b => rfl) (fun v s => rfl)
      p0 r0 pr hmem0 hr0
  · exact dim_eq_floor _ _ gs (by simp [vsubS, vaddS]; linarith) hgs
  · exact dim_eq_floor _ _ gs (by simp [vsubS, vaddS]; linarith) hgs
  · exact dim_eq_floor _ _ gs (by simp [vsubS, vaddS]; linarith) hgs

/-- Witness for C8 at a concrete input: one atom of radius 1 at the origin,
probe radius 2, spacing 1/4. -/
theorem C8_grid_extents_witness :
    ∃ g : GridExtents,
      gridExtents [(⟨0, 0, 0⟩ : Vec3)] [(1 : ℚ)] 2 (1/4) = some g ∧
      IsGreatest {r : ℚ | r ∈ [(1 : ℚ)]} (maxRadius [(1 : ℚ)]) ∧
      IsLeast {v : ℚ | ∃ a ∈ [(⟨0, 0, 0⟩ : Vec3)].zip [(1 : ℚ)], v = a.1.x - a.2}
        (g.mn.x + (2 + maxRadius [(1 : ℚ)])) ∧
      IsLeast {v : ℚ | ∃ a ∈ [(⟨0, 0, 0⟩ : Vec3)].zip [(1 : ℚ)], v = a.1.y - a.2}
        (g.mn.y + (2 + maxRadius [(1 : ℚ)])) ∧
      IsLeast {v : ℚ | ∃ a ∈ [(⟨0, 0, 0⟩ : Vec3)].zip [(1 : ℚ)], v = a.1.z - a.2}
        (g.mn.z + (2 + maxRadius [(1 : ℚ)])) ∧
      IsGreatest {v : ℚ | ∃ a ∈ [(⟨0, 0, 0⟩ : Vec3)].zip [(1 : ℚ)], v = a.1.x + a.2}
        (g.mx.x - (2 + maxRadius [(1 : ℚ)])) ∧
      IsGreatest {v : ℚ | ∃ a ∈ [(⟨0, 0, 0⟩ : Vec3)].zip [(1 : ℚ)], v = a.1.y + a.2}
        (g.mx.y - (2 + maxRadius [(1 : ℚ)])) ∧
      IsGreatest {v : ℚ | ∃ a ∈ [(⟨0, 0, 0⟩ : Vec3)].zip [(1 : ℚ)], v = a.1.z + a.2}
        (g.mx.z - (2 + maxRadius [(1 : ℚ)])) ∧
      g.xdim = ⌊(g.mx.x - g.mn.x) / (1/4 : ℚ)⌋ + 1 ∧
      g.ydim = ⌊(g.mx.y - g.mn.y) / (1/4 : ℚ)⌋ + 1 ∧
      g.zdim = ⌊(g.mx.z - g.mn.z) / (1/4 : ℚ)⌋ + 1 :=
  C8_grid_extents ⟨0, 0, 0⟩ [] 1 [] 2 (1/4)
    (by
      intro r hrm
      simp only [List.mem_singleton] at hrm
      subst hrm
      norm_num)
    (by norm_num)
    (by norm_num)

theorem intRange_nil (b x : ℤ) (h : x ≤ b) : intRange b x = [] := by
  rw [intRange]
  have h0 : (x - b).toNat = 0 := by omega
  rw [h0]
  rfl

theorem intRange_succ (b c : ℤ) (h : b ≤ c) :
    intRange b (c + 1) = intRange b c ++ [c] := by
  rw [intRange, intRange]
  have h1 : (c + 1 - b).toNat = (c - b).toNat + 1 := by omega
  rw [h1, List.range_succ, List.map_append]
  have h2 : b + ((c - b).toNat : ℤ) = c := by omega
  simp only [List.map_cons, List.map_nil]
  rw [h2]

theorem pfStep_inv (b e : ℤ) (s : PFState) (w : ℕ) (h : pfInv b e s) :
    pfInv b e (pfStep e s w) := by
  obtain ⟨hb, hinv, hdone⟩ := h
  rw [pfStep]
  by_cases hw : w ∈ s.active
  · rw [if_pos hw]
    by_cases hce : e ≤ s.counter
    · rw [if_pos hce]
      refine ⟨?_, ?_, ?_⟩
      · show b ≤ s.counter + 1
        omega
      · show s.invoked = intRange b (min (s.counter + 1) e)
        have hm : min (s.counter + 1) e = min s.counter e := by omega
        rw [hm]
        exact hinv
      · intro hempty
        show e ≤ s.counter + 1
        omega
    · rw [if_neg hce]
      refine ⟨?_, ?_, ?_⟩
      · show b ≤ s.counter + 1
        omega
      · show s.invoked ++ [s.counter] = intRange b (min (s.counter + 1) e)
        have hm1 : min (s.counter + 1) e = s.counter + 1 := by omega
        have hm2 : min s.counter e = s.counter := by omega
        rw [hm1, intRange_succ b s.counter hb, hinv, hm2]
      · intro hempty
        show e ≤ s.counter + 1
        exact absurd hempty (Finset.ne_empty_of_mem hw)
  · rw [if_neg hw]
    exact ⟨hb, hinv, hdone⟩

theorem pfRun_inv (b e : ℤ) (sched : List ℕ) (s : PFState) (h : pfInv b e s) :
    pfInv b e (pfRun e s sched) := by
  induction sched generalizing s with
  | nil => exact h
  | cons w t ih => exact ih (pfStep e s w) (pfStep_inv b e s w h)

/-- C4 (amended): with at least one worker launched, any complete run of the
claim loop — every worker has claimed a value at or beyond `end` and stopped
— invokes the per-index function on exactly the indices of `[begin, end)`,
each exactly once, in increasing claim order, regardless of worker count and
schedule.  (The source applies no minimum to the worker count: see the
counterexample for the zero-worker case.) -/
theorem C4_par_for_exactly_once (b e : ℤ) (numCpus : ℕ) (sched : List ℕ)
    (hcpus : 1 ≤ numCpus)
    (hdone : (pfRun e (pfInit b numCpus) sched).active = ∅) :
    (pfRun e (pfInit b numCpus) sched).invoked = intRange b e := by
  have hinit : pfInv b e (pfInit b numCpus) := by
    refine ⟨le_refl _, (intRange_nil b (min b e) (by omega)).symm, ?_⟩
    intro h
    have h0 : (0 : ℕ) ∈ Finset.range numCpus := Finset.mem_range.mpr (by omega)
    rw [show Finset.range numCpus = (pfInit b numCpus).active from rfl, h] at h0
    exact absurd h0 (Finset.not_mem_empty 0)
  obtain ⟨hb, hinv, hdone'⟩ := pfRun_inv b e sched (pfInit b numCpus) hinit
  have hce : e ≤ (pfRun e (pfInit b numCpus) sched).counter := hdone' hdone
  have hm : min (pfRun e (pfInit b numCpus) sched).counter e = e := by omega
  rw [hinv, hm]

/-- Witness for C4 at a concrete input: one worker, range [0, 2), a schedule
in which that worker claims three times (0 and 1 invoked, 2 stops it). -/
theorem C4_par_for_exactly_once_witness :
    (pfRun 2 (pfInit 0 1) [0, 0, 0]).invoked = intRange 0 2 :=
  C4_par_for_exactly_once 0 2 1 [0, 0, 0] (by norm_num) (by decide)

/-- C4 counterexample to the claim as stated: `hardware_concurrency()` may
report 0 and the source launches exactly that many workers (no minimum of
1), in which case a `par_for` pass over [0, 3) completes — there is no
worker left to join — with no index ever invoked. -/
theorem C4_par_for_zero_workers_counterexample :
    (pfRun 3 (pfInit 0 0) []).active = ∅ ∧
    (pfRun 3 (pfInit 0 0) []).invoked = [] ∧
    intRange 0 3 = [0, 1, 2] ∧
    (pfRun 3 (pfInit 0 0) []).invoked ≠ intRange 0 3 := by
  refine ⟨rfl, rfl, by decide, by decide⟩

/-- C10: the `-o` option is parsed — it consumes its value into
`outputPath` and changes nothing else — but the output name never reads
`outputPath`: it is exactly `<stem>_<chains>_<spacing>.fbx` for every
successful run, whatever `-o` was supplied. -/
theorem C10_output_name_ignores_output_path :
    (∀ (cfg : Config) (v : String) (rest : List String),
      parseLoop cfg ("-o" :: v :: rest) =
        parseLoop { cfg with outputPath := v } rest) ∧
    (∀ (cfg : Config) (p : String),
      outNameOfConfig { cfg with outputPath := p } = outNameOfConfig cfg) ∧
    (∀ (cfg : Config) (f : String), cfg.pdbFilename = some f →
      outNameOfConfig cfg = outFilename f cfg.chains cfg.gridSpacingText) := by
  refine ⟨fun cfg v rest => rfl, fun cfg p => rfl, fun cfg f hf => ?_⟩
  simp [outNameOfConfig, hf]

/-- Witness for C10 at a concrete input: parsing two runs that differ only
in their `-o` value yields the same output name, and the name is the stem
plus chains plus spacing with the `.fbx` extension. -/
theorem C10_output_name_witness :
    outNameOfConfig
      ⟨some ("dir/mol.pdb"), "somewhere/else", "0.25", "A-C", false, false⟩ =
      outFilename ("dir/mol.pdb") ("A-C") ("0.25") ∧
    outFilename ("dir/mol.pdb") ("A-C") ("0.25") = "mol_A-C_0.25.fbx" :=
  ⟨C10_output_name_ignores_output_path.2.2
      ⟨some ("dir/mol.pdb"), "somewhere/else", "0.25", "A-C", false, false⟩
      ("dir/mol.pdb") rfl,
    by decide⟩

/-- C6 (amended): for a single coloured atom of radius r at the origin the
compositor's branch boundary is the weight sign, i.e. distance 2r — not r:
when `4r^2 - d^2 > 0` the result is the normalisation of white plus the
clamped-weighted atom colour with alpha forced to 1; when `4r^2 - d^2 ≤ 0`
the result is the *normalised* neutral `(1/sqrt 3, 1/sqrt 3, 1/sqrt 3, 1)`,
not the unchanged neutral; the alpha channel is always 1. -/
theorem C6_color_compositor (c : Vec4R) (r : ℝ) (p : Vec3R) :
    (egenColor [⟨c, ⟨0, 0, 0⟩, r⟩] p).w = 1 ∧
    (0 < r * r * 4 - sqdistR p ⟨0, 0, 0⟩ →
      egenColor [⟨c, ⟨0, 0, 0⟩, r⟩] p =
        specNormalizedOpaque
          ⟨1 + c.x * min (r * r * 4 - sqdistR p ⟨0, 0, 0⟩) 1,
            1 + c.y * min (r * r * 4 - sqdistR p ⟨0, 0, 0⟩) 1,
            1 + c.z * min (r * r * 4 - sqdistR p ⟨0, 0, 0⟩) 1, 0⟩) ∧
    (r * r * 4 - sqdistR p ⟨0, 0, 0⟩ ≤ 0 →
      egenColor [⟨c, ⟨0, 0, 0⟩, r⟩] p =
        ⟨1 / Real.sqrt 3, 1 / Real.sqrt 3, 1 / Real.sqrt 3, 1⟩) := by
  refine ⟨rfl, ?_, ?_⟩
  · intro h
    have hmax : max 0 (min (r * r * 4 - sqdistR p ⟨0, 0, 0⟩) 1) =
        min (r * r * 4 - sqdistR p ⟨0, 0, 0⟩) 1 :=
      max_eq_right (le_min (le_of_lt h) zero_le_one)
    have hacc : egenAccum [⟨c, ⟨0, 0, 0⟩, r⟩] p =
        ⟨1 + c.x * min (r * r * 4 - sqdistR p ⟨0, 0, 0⟩) 1,
          1 + c.y * min (r * r * 4 - sqdistR p ⟨0, 0, 0⟩) 1,
          1 + c.z * min (r * r * 4 - sqdistR p ⟨0, 0, 0⟩) 1,
          1 + c.w * min (r * r * 4 - sqdistR p ⟨0, 0, 0⟩) 1⟩ := by
      simp [egenAccum, egenStep, mul_one, h, hmax]
    simp [egenColor, hacc, normalize4, specNormalizedOpaque]
  · intro h
    have hcond : ¬ (0 < r * r * 4 - sqdistR p ⟨0, 0, 0⟩) := not_lt.mpr h
    have hacc : egenAccum [⟨c, ⟨0, 0, 0⟩, r⟩] p = ⟨1, 1, 1, 1⟩ := by
      simp [egenAccum, egenStep, mul_one, hcond]
    have h3 : dot4 ⟨1, 1, 1, (0 : ℝ)⟩ ⟨1, 1, 1, (0 : ℝ)⟩ = 3 := by
      norm_num [dot4]
    simp [egenColor, hacc, normalize4, h3]

/-- C6 counterexample to the claim as stated: one red atom of radius 1 at
the origin and a query vertex at distance exactly 1 (so d ≥ r).  The claim
says the result is the neutral colour unchanged; in fact the weight
`4r^2 - d^2 = 3` is positive, the atom colour is accumulated, and the result
is the normalisation of (2,1,1,0) with alpha 1 — not (1,1,1,1). -/
theorem C6_color_compositor_counterexample :
    (1 : ℝ) * 1 ≤ sqdistR ⟨1, 0, 0⟩ ⟨0, 0, 0⟩ ∧
    egenColor [⟨⟨1, 0, 0, 1⟩, ⟨0, 0, 0⟩, 1⟩] ⟨1, 0, 0⟩ ≠ ⟨1, 1, 1, 1⟩ := by
  constructor
  · norm_num [sqdistR, dotR, vsubR]
  · have hd2 : sqdistR ⟨1, 0, 0⟩ ⟨0, 0, 0⟩ = 1 := by
      norm_num [sqdistR, dotR, vsubR]
    have hacc : egenAccum [⟨⟨1, 0, 0, 1⟩, ⟨0, 0, 0⟩, 1⟩] ⟨1, 0, 0⟩ =
        ⟨2, 1, 1, 2⟩ := by
      simp only [egenAccum, List.foldl_cons, List.foldl_nil, egenStep, hd2]
      norm_num [min_def, max_def]
    have hdot : dot4 ⟨2, 1, 1, (0 : ℝ)⟩ ⟨2, 1, 1, (0 : ℝ)⟩ = 6 := by
      norm_num [dot4]
    have hyval : (egenColor [⟨⟨1, 0, 0, 1⟩, ⟨0, 0, 0⟩, 1⟩] ⟨1, 0, 0⟩).y =
        1 / Real.sqrt 6 := by
      simp [egenColor, hacc, normalize4, hdot]
    intro hEq
    have hy1 : (egenColor [⟨⟨1, 0, 0, 1⟩, ⟨0, 0, 0⟩, 1⟩] ⟨1, 0, 0⟩).y = 1 := by
      rw [hEq]
    rw [hyval] at hy1
    have hgt : 1 < Real.sqrt 6 := by
      rw [show (1 : ℝ) = Real.sqrt 1 from Real.sqrt_one.symm]
      exact Real.sqrt_lt_sqrt (by norm_num) (by norm_num)
    have hlt : 1 / Real.sqrt 6 < 1 := by
      rw [div_lt_one (by linarith)]
      exact hgt
    linarith [hy1, hlt]

/-- Witness for C6 (amended) at a concrete input: atom of radius 1 at the
origin, vertex at distance 2 = 2r, so the weight is not positive and the
result is the normalised neutral. -/
theorem C6_color_compositor_witness :
    egenColor [⟨⟨1, 0, 0, 1⟩, ⟨0, 0, 0⟩, 1⟩] ⟨2, 0, 0⟩ =
      ⟨1 / Real.sqrt 3, 1 / Real.sqrt 3, 1 / Real.sqrt 3, 1⟩ :=
  (C6_color_compositor ⟨1, 0, 0, 1⟩ 1 ⟨2, 0, 0⟩).2.2
    (by norm_num [sqdistR, dotR, vsubR])

/-- One egen accumulation step never decreases the rgb components when the
atom's colour components are non-negative. -/
theorem egenStep_rgb_mono (xyz : Vec3R) (cu : Vec4R) (a : ColoredAtom)
    (hc : 0 ≤ a.color.x ∧ 0 ≤ a.color.y ∧ 0 ≤ a.color.z) :
    cu.x ≤ (egenStep xyz cu a).x ∧ cu.y ≤ (egenStep xyz cu a).y ∧
      cu.z ≤ (egenStep xyz cu a).z := by
  rw [egenStep]
  by_cases hcond : 0 < (a.radius * a.radius * 4 - sqdistR xyz a.pos) * 1
  · rw [if_pos hcond]
    have hw : (0 : ℝ) ≤
        max 0 (min ((a.radius * a.radius * 4 - sqdistR xyz a.pos) * 1) 1) :=
      le_max_left 0 _
    refine ⟨?_, ?_, ?_⟩
    · have := mul_nonneg hc.1 hw
      show cu.x ≤ cu.x + _
      linarith
    · have := mul_nonneg hc.2.1 hw
      show cu.y ≤ cu.y + _
      linarith
    · have := mul_nonneg hc.2.2 hw
      show cu.z ≤ cu.z + _
      linarith
  · rw [if_neg hcond]
    exact ⟨le_refl _, le_refl _, le_refl _⟩

/-- The rgb components of the running accumulator never drop below the seed
components when every colour is componentwise non-negative. -/
theorem egenAccum_rgb_ge (atoms : List ColoredAtom) (xyz : Vec3R)
    (init : Vec4R)
    (hc : ∀ a ∈ atoms, 0 ≤ a.color.x ∧ 0 ≤ a.color.y ∧ 0 ≤ a.color.z) :
    init.x ≤ (atoms.foldl (egenStep xyz) init).x ∧
    init.y ≤ (atoms.foldl (egenStep xyz) init).y ∧
    init.z ≤ (atoms.foldl (egenStep xyz) init).z := by
  induction atoms generalizing init with
  | nil => exact ⟨le_refl _, le_refl _, le_refl _⟩
  | cons b t ih =>
    have hb := egenStep_rgb_mono xyz init b (hc b (List.mem_cons_self b t))
    have ht := ih (egenStep xyz init b)
      (fun a ha => hc a (List.mem_cons_of_mem b ha))
    exact ⟨le_trans hb.1 ht.1, le_trans hb.2.1 ht.2.1,
      le_trans hb.2.2 ht.2.2⟩

/-- C9: the compositor's normalisation is never degenerate.  The accumulator
starts at opaque white; with componentwise non-negative atom colours each
rgb component only grows, so after zeroing alpha the vector handed to
normalize has squared magnitude at least 3, its magnitude is at least
sqrt 3 and in particular strictly positive: the near-zero fallback case of
the specification is unreachable. -/
theorem C9_color_normalization_nondegenerate (atoms : List ColoredAtom)
    (xyz : Vec3R)
    (hc : ∀ a ∈ atoms, 0 ≤ a.color.x ∧ 0 ≤ a.color.y ∧ 0 ≤ a.color.z) :
    egenAccum [] xyz = ⟨1, 1, 1, 1⟩ ∧
    1 ≤ (egenAccum atoms xyz).x ∧ 1 ≤ (egenAccum atoms xyz).y ∧
    1 ≤ (egenAccum atoms xyz).z ∧
    3 ≤ dot4 ⟨(egenAccum atoms xyz).x, (egenAccum atoms xyz).y,
        (egenAccum atoms xyz).z, 0⟩
      ⟨(egenAccum atoms xyz).x, (egenAccum atoms xyz).y,
        (egenAccum atoms xyz).z, 0⟩ ∧
    Real.sqrt 3 ≤ Real.sqrt (dot4 ⟨(egenAccum atoms xyz).x,
        (egenAccum atoms xyz).y, (egenAccum atoms xyz).z, 0⟩
      ⟨(egenAccum atoms xyz).x, (egenAccum atoms xyz).y,
        (egenAccum atoms xyz).z, 0⟩) ∧
    0 < Real.sqrt (dot4 ⟨(egenAccum atoms xyz).x, (egenAccum atoms xyz).y,
        (egenAccum atoms xyz).z, 0⟩
      ⟨(egenAccum atoms xyz).x, (egenAccum atoms xyz).y,
        (egenAccum atoms xyz).z, 0⟩) := by
  obtain ⟨hx, hy, hz⟩ := egenAccum_rgb_ge atoms xyz ⟨1, 1, 1, 1⟩ hc
  have hx1 : 1 ≤ (egenAccum atoms xyz).x := hx
  have hy1 : 1 ≤ (egenAccum atoms xyz).y := hy
  have hz1 : 1 ≤ (egenAccum atoms xyz).z := hz
  have hdot : 3 ≤ dot4 ⟨(egenAccum atoms xyz).x, (egenAccum atoms xyz).y,
      (egenAccum atoms xyz).z, 0⟩
      ⟨(egenAccum atoms xyz).x, (egenAccum atoms xyz).y,
        (egenAccum atoms xyz).z, 0⟩ := by
    show 3 ≤ (egenAccum atoms xyz).x * (egenAccum atoms xyz).x +
      (egenAccum atoms xyz).y * (egenAccum atoms xyz).y +
      (egenAccum atoms xyz).z * (egenAccum atoms xyz).z + 0 * 0
    nlinarith [hx1, hy1, hz1]
  refine ⟨rfl, hx1, hy1, hz1, hdot, Real.sqrt_le_sqrt hdot, ?_⟩
  exact Real.sqrt_pos.mpr (by linarith)

/-- Witness for C9 at a concrete input: a single red atom at the origin and
the query vertex at the origin. -/
theorem C9_color_normalization_witness :
    1 ≤ (egenAccum [⟨⟨1, 0, 0, 1⟩, ⟨0, 0, 0⟩, 1⟩] ⟨0, 0, 0⟩).x ∧
    0 < Real.sqrt (dot4
      ⟨(egenAccum [⟨⟨1, 0, 0, 1⟩, ⟨0, 0, 0⟩, 1⟩] ⟨0, 0, 0⟩).x,
        (egenAccum [⟨⟨1, 0, 0, 1⟩, ⟨0, 0, 0⟩, 1⟩] ⟨0, 0, 0⟩).y,
        (egenAccum [⟨⟨1, 0, 0, 1⟩, ⟨0, 0, 0⟩, 1⟩] ⟨0, 0, 0⟩).z, 0⟩
      ⟨(egenAccum [⟨⟨1, 0, 0, 1⟩, ⟨0, 0, 0⟩, 1⟩] ⟨0, 0, 0⟩).x,
        (egenAccum [⟨⟨1, 0, 0, 1⟩, ⟨0, 0, 0⟩, 1⟩] ⟨0, 0, 0⟩).y,
        (egenAccum [⟨⟨1, 0, 0, 1⟩, ⟨0, 0, 0⟩, 1⟩] ⟨0, 0, 0⟩).z, 0⟩) := by
  have h := C9_color_normalization_nondegenerate
    [⟨⟨1, 0, 0, 1⟩, ⟨0, 0, 0⟩, 1⟩] ⟨0, 0, 0⟩
    (by
      intro a ha
      simp only [List.mem_singleton] at ha
      subst ha
      norm_num)
  exact ⟨h.2.1, h.2.2.2.2.2.2⟩
